import Mathlib

/-! Registry rewrite webhook: image normalisation, rule matching, rule cache.

A shallow embedding of `internal/webhook/pod_mutator.go` and of the rule types of
`api/v1alpha1/registryrewriterule_types.go`.

* Go strings are Lean `String`s; the hard-coded patterns of `normalizeImage` are terms of a
  small regular-expression syntax `Re`, run by a derivative matcher.
* User supplied patterns are values of `Regexp`, the interface of a compiled `*regexp.Regexp`
  that the webhook uses (`MatchString`, `ReplaceAllString`).
* Go maps `map[string]string` are association lists, `none` standing for the nil map.
* The mutator's mutable fields and the two cache counters are an explicit state `PodMutator`.
-/

namespace Webhook

/-! ## Regular expressions for the hard-coded patterns -/

/-- Regular expressions over characters; `cls p` is a character class. -/
inductive Re where
  | zero : Re
  | eps : Re
  | cls (p : Char → Bool) : Re
  | cat (a b : Re) : Re
  | alt (a b : Re) : Re
  | star (a : Re) : Re

namespace Re

/-- Does the expression accept the empty string. -/
def nullable : Re → Bool
  | zero => false
  | eps => true
  | cls _ => false
  | cat a b => a.nullable && b.nullable
  | alt a b => a.nullable || b.nullable
  | star _ => true

/-- Brzozowski derivative with respect to one character. -/
def deriv : Re → Char → Re
  | zero, _ => zero
  | eps, _ => zero
  | cls p, c => if p c then eps else zero
  | cat a b, c => if a.nullable then alt (cat (a.deriv c) b) (b.deriv c) else cat (a.deriv c) b
  | alt a b, c => alt (a.deriv c) (b.deriv c)
  | star a, c => cat (a.deriv c) (star a)

/-- The search `MatchString` performs for a pattern `^r`: does some prefix of the text match
`r`. -/
def matchPrefix : Re → List Char → Bool
  | r, [] => r.nullable
  | r, c :: cs => r.nullable || (r.deriv c).matchPrefix cs

/-- The single character `c`. -/
def chr (c : Char) : Re := cls (fun x => x == c)

/-- The literal text `cs`. -/
def lit : List Char → Re
  | [] => eps
  | c :: cs => cat (chr c) (lit cs)

/-- The postfix operator `?`. -/
def opt (r : Re) : Re := alt r eps

/-- The postfix operator `+`. -/
def plus (r : Re) : Re := cat r (star r)

/-- The repetition `{2,}`. -/
def atLeastTwo (r : Re) : Re := cat r (cat r (star r))

/-- Declarative meaning of an expression: the strings it matches in full. -/
inductive Matches : Re → List Char → Prop
  | eps : Matches Re.eps []
  | cls (p : Char → Bool) (c : Char) : p c = true → Matches (Re.cls p) [c]
  | cat {a b : Re} {s t : List Char} : Matches a s → Matches b t → Matches (Re.cat a b) (s ++ t)
  | altL {a b : Re} {s : List Char} : Matches a s → Matches (Re.alt a b) s
  | altR {a b : Re} {s : List Char} : Matches b s → Matches (Re.alt a b) s
  | starNil {a : Re} : Matches (Re.star a) []
  | starCons {a : Re} {s t : List Char} :
      Matches a s → Matches (Re.star a) t → Matches (Re.star a) (s ++ t)

end Re

/-- The class `[a-zA-Z]`. -/
def isAlpha (c : Char) : Bool :=
  ('a' ≤ c && c ≤ 'z') || ('A' ≤ c && c ≤ 'Z')

/-- The class `[0-9]`. -/
def isDigit (c : Char) : Bool := '0' ≤ c && c ≤ '9'

/-- The class `[a-zA-Z0-9]`. -/
def isAlnum (c : Char) : Bool := isAlpha c || isDigit c

/-- The class `[a-zA-Z0-9-_.]`: after the range `0-9` the characters `-`, `_` and `.` stand
for themselves. -/
def isHostChar (c : Char) : Bool := isAlnum c || c == '-' || c == '_' || c == '.'

/-- The pattern `^[a-zA-Z0-9][a-zA-Z0-9-_.]*\.[a-zA-Z]{2,}/` without its anchor. -/
def registryRe : Re :=
  .cat (.cls isAlnum) (.cat (.star (.cls isHostChar))
    (.cat (Re.chr '.') (.cat (Re.atLeastTwo (.cls isAlpha)) (Re.chr '/'))))

/-- The pattern `^localhost(:[0-9]+)?/` without its anchor. -/
def localhostRe : Re :=
  .cat (Re.lit "localhost".data)
    (.cat (Re.opt (.cat (Re.chr ':') (Re.plus (.cls isDigit)))) (Re.chr '/'))

/-- normalizeImage adds docker.io prefix to images without registry. -/
def normalizeImage (image : String) : String :=
  -- If image already has a registry, return as-is
  if registryRe.matchPrefix image.data then image
  -- If it's a localhost image, return as-is
  else if localhostRe.matchPrefix image.data then image
  -- Add docker.io prefix
  else "docker.io/" ++ image

/-- A port suffix `:digits` with at least one digit. -/
def IsPortSuffix (p : List Char) : Prop :=
  ∃ ds, p = ':' :: ds ∧ ds ≠ [] ∧ ∀ d ∈ ds, isDigit d = true

/-- The image starts with a registry host of the shape the first pattern accepts: a letter
or digit, then letters, digits, `-`, `_` and `.`, ending in a dot and a last label of two or
more letters, with `/` right after it. -/
def BeginsWithRegistry (image : String) : Prop :=
  ∃ (c0 : Char) (mid tld rest : List Char),
    image.data = c0 :: (mid ++ '.' :: (tld ++ '/' :: rest)) ∧ isAlnum c0 = true ∧
      (∀ c ∈ mid, isHostChar c = true) ∧ 2 ≤ tld.length ∧ ∀ c ∈ tld, isAlpha c = true

/-- The image starts with `localhost`, an optional `:port`, and `/`. -/
def BeginsWithLocalhost (image : String) : Prop :=
  ∃ p rest : List Char,
    image.data = "localhost".data ++ (p ++ '/' :: rest) ∧ (p = [] ∨ IsPortSuffix p)

/-- A dotted hostname: a non-empty run of letters, digits, `-`, `_` and `.` that contains a
dot. No condition is put on its last label. -/
def IsDottedHost (h : List Char) : Prop :=
  h ≠ [] ∧ (∀ c ∈ h, isHostChar c = true) ∧ '.' ∈ h

/-- The image starts with a dotted hostname followed by `/`. -/
def BeginsWithDottedHost (image : String) : Prop :=
  ∃ h rest : List Char, image.data = h ++ '/' :: rest ∧ IsDottedHost h

/-- The image starts with a DNS-like hostname (a dotted hostname, or `localhost`), an
optional `:port`, and `/`. -/
def BeginsWithDnsLikeHost (image : String) : Prop :=
  ∃ h p rest : List Char, image.data = h ++ (p ++ '/' :: rest) ∧
    (IsDottedHost h ∨ h = "localhost".data) ∧ (p = [] ∨ IsPortSuffix p)

/-! ## Data model -/

/-- Go's `map[string]string`: `none` is the nil map, `some es` a map with the entries `es`
(a key is looked up at its first entry). -/
abbrev GoMap := Option (List (String × String))

/-- The entries a `range` over the map visits. -/
def GoMap.entries : GoMap → List (String × String)
  | none => []
  | some es => es

/-- The value of `len(m)`. -/
def GoMap.len (m : GoMap) : Nat := (GoMap.entries m).length

/-- The value found under a key, if any. -/
def GoMap.find? (m : GoMap) (k : String) : Option String := (GoMap.entries m).lookup k

/-- The value of `m[k]`: the zero value `""` when the key is absent or the map is nil. -/
def GoMap.get (m : GoMap) (k : String) : String := (GoMap.find? m k).getD ""

/-- RuleConditions defines conditions for when a rule should be applied. -/
structure RuleConditions where
  Namespaces : List String
  Labels : GoMap

/-- Rule defines a single registry rewrite rule. -/
structure Rule where
  Match : String
  Replace : String
  Priority : Int
  Conditions : Option RuleConditions

/-- RegistryRewriteRuleSpec defines the desired state of RegistryRewriteRule. -/
structure RegistryRewriteRuleSpec where
  Rules : List Rule

/-- RegistryRewriteRule: one declared rule set. -/
structure RegistryRewriteRule where
  Name : String
  Spec : RegistryRewriteRuleSpec

/-- What the webhook uses of a compiled `*regexp.Regexp`. -/
structure Regexp where
  MatchString : String → Bool
  ReplaceAllString : String → String → String

/-- compiledRule represents a compiled regex rule. -/
structure compiledRule where
  rule : Rule
  regex : Regexp
  replace : String

/-- rulesCache holds compiled rules. -/
structure rulesCache where
  rules : List compiledRule

/-- The Rule Store as the mutator sees it: the outcome of `Client.List`, either an error or
the items of the `RegistryRewriteRuleList`. -/
structure Client where
  List : Except String (List RegistryRewriteRule)

/-- A container of a Pod, with the one field the webhook rewrites. -/
structure Container where
  Name : String
  Image : String

/-- The fields of `corev1.Pod` the webhook reads or writes. -/
structure Pod where
  Name : String
  Namespace : String
  Labels : GoMap
  Annotations : GoMap
  Containers : List Container
  InitContainers : List Container
  EphemeralContainers : List Container

/-- The admission request: its namespace and the raw bytes of the object. -/
structure Request where
  Namespace : String
  Raw : String

/-- The decoder and `json.Marshal`, the two codecs `Handle` calls. -/
structure Codec where
  Decode : Request → Except String Pod
  Marshal : Pod → Except String String

/-- The admission responses `Handle` builds: `admission.Allowed(reason)`,
`admission.Errored(code, err)` and `admission.PatchResponseFromRaw(original, current)`. -/
inductive Response where
  | Allowed (reason : String) : Response
  | Errored (code : Nat) (err : String) : Response
  | PatchResponseFromRaw (original current : String) : Response

/-- PodMutator mutates Pods. Next to the fields `Client` and `rulesCache` of the Go struct,
the state carries the package-level counters `cacheHits` and `cacheMisses`, the gauge
`rulesCount`, and `listCalls`, the number of `Client.List` calls made so far. -/
structure PodMutator where
  Client : Client
  rulesCache : Option rulesCache
  cacheHits : Nat
  cacheMisses : Nat
  rulesCount : Nat
  listCalls : Nat

/-! ## Operations -/

/-- checkConditions checks if a rule's conditions match the pod. -/
def checkConditions (rule : Rule) (pod : Pod) : Bool :=
  match rule.Conditions with
  | none => true
  | some conds =>
    -- Check namespace conditions
    if 0 < conds.Namespaces.length && !(conds.Namespaces.any (fun ns => ns == pod.Namespace))
    then false
    -- Check label conditions
    else if 0 < GoMap.len conds.Labels then
      (GoMap.entries conds.Labels).all (fun kv => GoMap.get pod.Labels kv.1 == kv.2)
    else true

/-- The loop of `mutateImage` over the rules. -/
def mutateImageLoop (image normalizedImage : String) (pod : Pod) : List compiledRule → String
  | [] => image
  | rule :: rules =>
    -- Check conditions
    if !checkConditions rule.rule pod then mutateImageLoop image normalizedImage pod rules
    -- Apply regex
    else if rule.regex.MatchString normalizedImage then
      rule.regex.ReplaceAllString normalizedImage rule.replace
    else mutateImageLoop image normalizedImage pod rules

/-- mutateImage applies rules to an image and returns the mutated image. (The increment of
the `mutationsTotal` counter is not part of the returned value and is left out.) -/
def mutateImage (image : String) (rules : List compiledRule) (pod : Pod) : String :=
  -- Normalize image name (add docker.io prefix if needed)
  mutateImageLoop image (normalizeImage image) pod rules

/-- One step of the insertion `sort.Slice` runs: the new element moves left past every
element it is `less` than; `rev` is the sorted part, last element first. -/
def insertLeft {α : Type} (less : α → α → Bool) (x : α) : List α → List α
  | [] => [x]
  | y :: rev => if less x y then y :: insertLeft less x rev else x :: y :: rev

/-- The library call `sort.Slice(xs, less)`, as the insertion sort it runs on slices of up
to 12 elements. The library promises a sorted permutation and no particular order among
elements that compare equal: on longer slices it may order such elements differently from
this insertion sort, so only permutation and sortedness are to be read off this model. -/
def sortSlice {α : Type} (less : α → α → Bool) (xs : List α) : List α :=
  (xs.foldl (fun rev x => insertLeft less x rev) []).reverse

/-- The comparison `getRules` sorts with: higher priority first. -/
def priorityLess (a b : compiledRule) : Bool := decide (a.rule.Priority > b.rule.Priority)

/-- The compile loop of `getRules`: every rule of every item, in order, those whose pattern
`regexp.Compile` rejects being skipped. -/
def compileRules (Compile : String → Option Regexp) (items : List RegistryRewriteRule) :
    List compiledRule :=
  items.flatMap (fun rr => rr.Spec.Rules.filterMap (fun rule =>
    match Compile rule.Match with
    | none => none
    | some regex => some { rule := rule, regex := regex, replace := rule.Replace }))

/-- The part of `getRules` after a cache miss: fetch, compile, sort, store. -/
def rebuildRules (Compile : String → Option Regexp) (m : PodMutator) :
    Except String (List compiledRule) × PodMutator :=
  let m1 := { m with cacheMisses := m.cacheMisses + 1, listCalls := m.listCalls + 1 }
  -- Fetch all RegistryRewriteRule resources
  match m.Client.List with
  | .error err => (.error ("failed to list RegistryRewriteRule: " ++ err), m1)
  | .ok items =>
    -- Compile all rules, sort by priority (higher first)
    let compiledRules := sortSlice priorityLess (compileRules Compile items)
    -- Update cache and metrics
    (.ok compiledRules,
      { m1 with rulesCache := some { rules := compiledRules },
                rulesCount := compiledRules.length })

/-- getRules fetches and compiles all rules. `Compile` is the library's `regexp.Compile`. -/
def getRules (Compile : String → Option Regexp) (m : PodMutator) :
    Except String (List compiledRule) × PodMutator :=
  match m.rulesCache with
  | some cache =>
    if 0 < cache.rules.length then (.ok cache.rules, { m with cacheHits := m.cacheHits + 1 })
    else rebuildRules Compile m
  | none => rebuildRules Compile m

/-- InvalidateCache invalidates the rules cache. -/
def InvalidateCache (m : PodMutator) : PodMutator := { m with rulesCache := none }

/-- One of the three container loops of `Handle`: every image is passed to `mutateImage`
and replaced when the result differs; the flag tells whether any was replaced. The loops
write images only, and `mutateImage` reads the namespace and labels of the pod only. -/
def mutateContainers (rules : List compiledRule) (pod : Pod) :
    List Container → List Container × Bool
  | [] => ([], false)
  | container :: rest =>
    let newImage := mutateImage container.Image rules pod
    let r := mutateContainers rules pod rest
    if newImage != container.Image then ({ container with Image := newImage } :: r.1, true)
    else (container :: r.1, r.2)

/-- Handle handles Pod admission requests. (The duration histogram and the log lines are
left out.) -/
def Handle (codec : Codec) (Compile : String → Option Regexp) (m : PodMutator)
    (req : Request) : Response × PodMutator :=
  match codec.Decode req with
  | .error err => (.Errored 400 err, m)
  | .ok pod =>
    -- Check if mutation is disabled via annotation
    if pod.Annotations.isSome && GoMap.get pod.Annotations "rewrite-disabled" == "true" then
      (.Allowed "rewrite disabled", m)
    else
      -- Get current rules
      match getRules Compile m with
      | (.error _, m1) => (.Allowed "failed to get rules", m1)
      | (.ok rules, m1) =>
        if rules.length = 0 then (.Allowed "no rules configured", m1)
        else
          -- Apply mutations
          let cs := mutateContainers rules pod pod.Containers
          let ics := mutateContainers rules pod pod.InitContainers
          let ecs := mutateContainers rules pod pod.EphemeralContainers
          if !(cs.2 || ics.2 || ecs.2) then (.Allowed "no mutations needed", m1)
          else
            -- Create the patch
            match codec.Marshal { pod with Containers := cs.1, InitContainers := ics.1,
                                           EphemeralContainers := ecs.1 } with
            | .error err => (.Errored 500 err, m1)
            | .ok marshaledPod => (.PatchResponseFromRaw req.Raw marshaledPod, m1)

/-- The rule is the one `mutateImage` stops at, if it gets there: its conditions hold for
the pod and its pattern matches the normalised image. -/
def ruleApplies (image : String) (pod : Pod) (r : compiledRule) : Bool :=
  checkConditions r.rule pod && r.regex.MatchString (normalizeImage image)

/-- The cache holds no rules (it is nil, or its slice is empty): the case in which
`getRules` rebuilds. -/
def cacheIsEmpty (m : PodMutator) : Bool :=
  match m.rulesCache with
  | none => true
  | some cache => cache.rules.length == 0

/-! ## The patterns of the test suite

The rules of `pod_mutator_test.go` use the patterns `^docker\.io/(.*)` and
`^docker\.io/library/nginx.*`: an anchored literal followed by `.*`, with or without a
group around it. `anchoredRegexp` is the compiled form of such a pattern. -/

/-- Characters of a group name in a replacement template: the ASCII letters and digits and
`_`. The library also takes letters and digits outside ASCII; the templates used here have
none. -/
def isNameChar (c : Char) : Bool := isAlnum c || c == '_'

/-- The number a group name denotes, if it is one: decimal digits, read while the value is
below `1e8`, and no leading zero on a name of more than one character. -/
def nameNumber (name : List Char) : Option Nat :=
  let num := name.foldl (fun acc d =>
    match acc with
    | none => none
    | some n =>
      if !isDigit d || 100000000 ≤ n then none else some (n * 10 + (d.toNat - '0'.toNat)))
    (some 0)
  -- Disallow leading zeros.
  if name.head? == some '0' && 1 < name.length then none else num

/-- The library's `extract`: the group reference at the head of a template, after its `$`;
`name` or `{name}`. Gives the group number (if the name is a number) and the rest of the
template, or nothing when the reference is malformed. -/
def extract (str : List Char) : Option (Option Nat × List Char) :=
  let brace := str.head? == some '{'
  let str1 := if brace then str.drop 1 else str
  let name := str1.takeWhile isNameChar
  let after := str1.dropWhile isNameChar
  if name.isEmpty then none
  else if brace then
    (if after.head? == some '}' then some (nameNumber name, after.drop 1) else none)
  else some (nameNumber name, after)

/-- The library's `expand`: copy the template, `$$` giving `$`, a group reference giving the
text of that group (`subs` lists the whole match and then the numbered groups; a group that
does not exist gives nothing), a malformed reference giving its `$`. -/
def expandFuel (subs : List (List Char)) : Nat → List Char → List Char
  | 0, t => t
  | _ + 1, [] => []
  | n + 1, c :: t =>
    if c == '$' then
      if t.head? == some '$' then '$' :: expandFuel subs n (t.drop 1)
      else
        match extract t with
        | none => '$' :: expandFuel subs n t
        | some (some k, rest) => subs.getD k [] ++ expandFuel subs n rest
        | some (none, rest) => expandFuel subs n rest
    else c :: expandFuel subs n t

/-- Template expansion with enough fuel for the whole template. -/
def expand (subs : List (List Char)) (template : List Char) : List Char :=
  expandFuel subs (template.length + 1) template

/-- The compiled pattern `^lit.*`, or `^lit(.*)` when `grouped`, for a literal `lit`. The
anchor allows one match, at the start of the text; `.*` takes the longest run of characters
other than newline. -/
def anchoredRegexp (lit : String) (grouped : Bool) : Regexp where
  MatchString s :=
    (Re.cat (Re.lit lit.data) (Re.star (Re.cls (fun c => c != '\n')))).matchPrefix s.data
  ReplaceAllString src repl :=
    if lit.data.isPrefixOf src.data then
      let rest := src.data.drop lit.data.length
      let run := rest.takeWhile (fun c => c != '\n')
      let subs := if grouped then [lit.data ++ run, run] else [lit.data ++ run]
      ⟨expand subs repl.data ++ rest.dropWhile (fun c => c != '\n')⟩
    else src

/-- The compiled rule of the tests `should apply matching rules` and `should add library
prefix`: the pattern `^docker\.io/(.*)`, no conditions, priority `priority`. -/
def dockerIoRule (replace : String) (priority : Int) : compiledRule where
  rule := { Match := "^docker\\.io/(.*)", Replace := replace, Priority := priority,
            Conditions := none }
  regex := anchoredRegexp "docker.io/" true
  replace := replace

/-- The first compiled rule of the test `should respect rule priority`: the pattern
`^docker\.io/library/nginx.*`, priority 100. -/
def nginxRule : compiledRule where
  rule := { Match := "^docker\\.io/library/nginx.*", Replace := "special-registry/nginx",
            Priority := 100, Conditions := none }
  regex := anchoredRegexp "docker.io/library/nginx" false
  replace := "special-registry/nginx"

/-- A compiled rule with the pattern `^.*`, which matches every image, limited to the given
namespaces; the namespace test of `should check namespace conditions`. -/
def namespaceRule (namespaces : List String) : compiledRule where
  rule := { Match := "^.*", Replace := "replaced", Priority := 0,
            Conditions := some { Namespaces := namespaces, Labels := none } }
  regex := anchoredRegexp "" false
  replace := "replaced"

/-- A rule with the pattern `.*` and the given label conditions; the label test of `should
check label conditions`. -/
def labelRule (labels : GoMap) : Rule where
  Match := ".*"
  Replace := "replaced"
  Priority := 0
  Conditions := some { Namespaces := [], Labels := labels }

/-- A rule whose pattern `(` is not a regular expression (the group is never closed). -/
def brokenRule : Rule where
  Match := "("
  Replace := "replaced"
  Priority := 75
  Conditions := none

/-- A stand-in for the library's `regexp.Compile` that knows the patterns used here: the
three anchored patterns compile, `(` and everything else is rejected. -/
def testCompile (pattern : String) : Option Regexp :=
  if pattern == "^docker\\.io/(.*)" then some (anchoredRegexp "docker.io/" true)
  else if pattern == "^docker\\.io/library/nginx.*" then
    some (anchoredRegexp "docker.io/library/nginx" false)
  else if pattern == "^.*" then some (anchoredRegexp "" false)
  else none

/-- The pod of the tests: `test-pod` in namespace `default`. -/
def testPod : Pod where
  Name := "test-pod"
  Namespace := "default"
  Labels := none
  Annotations := none
  Containers := []
  InitContainers := []
  EphemeralContainers := []

/-- The test pod with one container and the annotation `rewrite-disabled: "true"`. -/
def disabledPod : Pod :=
  { testPod with Annotations := some [("rewrite-disabled", "true")],
                 Containers := [{ Name := "web", Image := "nginx:latest" }] }

/-- A codec whose decoder yields the given pod. -/
def testCodec (pod : Pod) : Codec where
  Decode := fun _ => .ok pod
  Marshal := fun _ => .ok "marshaled"

/-- A mutator with an empty cache in front of a Rule Store holding one rule set with the
given rules. -/
def testMutator (rules : List Rule) : PodMutator where
  Client := { List := .ok [{ Name := "hub", Spec := { Rules := rules } }] }
  rulesCache := none
  cacheHits := 0
  cacheMisses := 0
  rulesCount := 0
  listCalls := 0

/-- A mutator with an empty cache in front of the given Rule Store. -/
def mutatorOver (client : Client) : PodMutator where
  Client := client
  rulesCache := none
  cacheHits := 0
  cacheMisses := 0
  rulesCount := 0
  listCalls := 0

/-- The test pod with a container, an init container and an ephemeral container. -/
def webPod : Pod :=
  { testPod with Containers := [{ Name := "web", Image := "library/nginx:1.25" },
                                { Name := "side", Image := "gcr.io/project/image:tag" }],
                 InitContainers := [{ Name := "init", Image := "redis:alpine" }],
                 EphemeralContainers := [{ Name := "debug", Image := "quay.io/org/image" }] }

/-- A codec whose decoder yields the given pod and whose marshaller writes down the images
of the pod it is given, separated by commas. -/
def imageCodec (pod : Pod) : Codec where
  Decode := fun _ => .ok pod
  Marshal := fun p =>
    .ok (String.intercalate ","
      ((p.Containers ++ p.InitContainers ++ p.EphemeralContainers).map (fun c => c.Image)))

/-! ## Sequences of calls, and the rewritten pod -/

/-- The outcome of `n` consecutive `getRules` calls with nothing in between: the results in
call order, and the state after the last call. -/
def getRulesTimes (Compile : String → Option Regexp) :
    Nat → PodMutator → List (Except String (List compiledRule)) × PodMutator
  | 0, m => ([], m)
  | n + 1, m =>
    let r := getRules Compile m
    let rs := getRulesTimes Compile n r.2
    (r.1 :: rs.1, rs.2)

/-- The images of a pod: those of its containers, init containers and ephemeral
containers. -/
def podImages (pod : Pod) : List String :=
  (pod.Containers ++ pod.InitContainers ++ pod.EphemeralContainers).map (fun c => c.Image)

/-- A container list in which every image is replaced by `mutateImage` of it: same
containers, same order, same count. -/
def rewriteContainers (rules : List compiledRule) (pod : Pod) (cs : List Container) :
    List Container :=
  cs.map (fun c => { c with Image := mutateImage c.Image rules pod })

/-- The pod in which every container, init-container and ephemeral-container image is
replaced by `mutateImage` of the original image, every other field being that of the
original pod. -/
def rewrittenPod (rules : List compiledRule) (pod : Pod) : Pod :=
  { pod with Containers := rewriteContainers rules pod pod.Containers,
             InitContainers := rewriteContainers rules pod pod.InitContainers,
             EphemeralContainers := rewriteContainers rules pod pod.EphemeralContainers }

/-! ## The matcher agrees with the declarative meaning -/

namespace Re

theorem matches_zero_iff (u : List Char) : Matches zero u ↔ False := by
  constructor
  · intro h; cases h
  · intro h; exact h.elim

theorem matches_eps_iff (u : List Char) : Matches eps u ↔ u = [] := by
  constructor
  · intro h; cases h; rfl
  · rintro rfl; exact Matches.eps

theorem matches_cls_iff (p : Char → Bool) (u : List Char) :
    Matches (cls p) u ↔ ∃ c, u = [c] ∧ p c = true := by
  constructor
  · intro h; cases h with
    | cls _ c hc => exact ⟨c, rfl, hc⟩
  · rintro ⟨c, rfl, hc⟩; exact Matches.cls p c hc

theorem matches_cat_iff (a b : Re) (u : List Char) :
    Matches (cat a b) u ↔ ∃ s t, u = s ++ t ∧ Matches a s ∧ Matches b t := by
  constructor
  · intro h; cases h with
    | cat ha hb => exact ⟨_, _, rfl, ha, hb⟩
  · rintro ⟨s, t, rfl, ha, hb⟩; exact Matches.cat ha hb

theorem matches_alt_iff (a b : Re) (u : List Char) :
    Matches (alt a b) u ↔ Matches a u ∨ Matches b u := by
  constructor
  · intro h; cases h with
    | altL ha => exact Or.inl ha
    | altR hb => exact Or.inr hb
  · rintro (ha | hb)
    · exact Matches.altL ha
    · exact Matches.altR hb

/-- A non-empty match of a star starts with a non-empty match of its body. -/
theorem matches_star_cons (a : Re) (c : Char) (u : List Char) :
    Matches (star a) (c :: u) ↔
      ∃ s t, u = s ++ t ∧ Matches a (c :: s) ∧ Matches (star a) t := by
  constructor
  · intro h
    generalize hr : star a = r at h
    generalize hw : c :: u = w at h
    induction h generalizing u with
    | eps => cases hr
    | cls _ _ _ => cases hr
    | cat _ _ _ _ => cases hr
    | altL _ _ => cases hr
    | altR _ _ => cases hr
    | starNil => cases hw
    | @starCons a' s t hs ht _ iht =>
      cases hr
      cases s with
      | nil => exact iht u rfl (by simpa using hw)
      | cons d s' =>
        simp only [List.cons_append, List.cons.injEq] at hw
        obtain ⟨rfl, rfl⟩ := hw
        exact ⟨s', t, rfl, hs, ht⟩
  · rintro ⟨s, t, rfl, hs, ht⟩
    exact Matches.starCons hs ht

theorem nullable_iff (r : Re) : r.nullable = true ↔ Matches r [] := by
  induction r with
  | zero => simp [nullable, matches_zero_iff]
  | eps => simp [nullable, matches_eps_iff]
  | cls p => simp [nullable, matches_cls_iff]
  | cat a b iha ihb =>
    simp only [nullable, Bool.and_eq_true, iha, ihb, matches_cat_iff]
    constructor
    · rintro ⟨ha, hb⟩; exact ⟨[], [], rfl, ha, hb⟩
    · rintro ⟨s, t, h, ha, hb⟩
      have := List.append_eq_nil.mp h.symm
      obtain ⟨rfl, rfl⟩ := this
      exact ⟨ha, hb⟩
  | alt a b iha ihb => simp [nullable, iha, ihb, matches_alt_iff]
  | star a _ => simp [nullable, Matches.starNil]

theorem deriv_iff (r : Re) (c : Char) (u : List Char) :
    Matches (r.deriv c) u ↔ Matches r (c :: u) := by
  induction r generalizing u with
  | zero => simp [deriv, matches_zero_iff]
  | eps => simp [deriv, matches_zero_iff, matches_eps_iff]
  | cls p =>
    by_cases hp : p c = true
    · simp only [deriv, hp, if_true, matches_eps_iff, matches_cls_iff]
      constructor
      · rintro rfl; exact ⟨c, rfl, hp⟩
      · rintro ⟨d, hd, _⟩; simp at hd; exact hd.2
    · have hz : Matches (deriv (cls p) c) u ↔ False := by
        simp [deriv, hp, matches_zero_iff]
      rw [hz, matches_cls_iff, false_iff]
      rintro ⟨d, hd, hpd⟩
      simp at hd
      exact hp (hd.1 ▸ hpd)
  | cat a b iha ihb =>
    have key : Matches (cat a b) (c :: u) ↔
        (Matches (cat (a.deriv c) b) u ∨ (a.nullable = true ∧ Matches (b.deriv c) u)) := by
      rw [matches_cat_iff, matches_cat_iff]
      constructor
      · rintro ⟨s, t, h, ha, hb⟩
        cases s with
        | nil =>
          simp only [List.nil_append] at h
          subst h
          exact Or.inr ⟨(nullable_iff a).mpr ha, (ihb u).mpr hb⟩
        | cons d s' =>
          simp only [List.cons_append, List.cons.injEq] at h
          obtain ⟨rfl, rfl⟩ := h
          exact Or.inl ⟨s', t, rfl, (iha s').mpr ha, hb⟩
      · rintro (⟨s, t, rfl, ha, hb⟩ | ⟨hn, hb⟩)
        · exact ⟨c :: s, t, rfl, (iha s).mp ha, hb⟩
        · exact ⟨[], c :: u, rfl, (nullable_iff a).mp hn, (ihb u).mp hb⟩
    rw [key]
    by_cases hn : a.nullable = true
    · simp [deriv, hn, matches_alt_iff]
    · simp [deriv, hn]
  | alt a b iha ihb => simp [deriv, matches_alt_iff, iha, ihb]
  | star a iha =>
    simp only [deriv, matches_cat_iff, matches_star_cons]
    constructor
    · rintro ⟨s, t, rfl, ha, ht⟩; exact ⟨s, t, rfl, (iha s).mp ha, ht⟩
    · rintro ⟨s, t, rfl, ha, ht⟩; exact ⟨s, t, rfl, (iha s).mpr ha, ht⟩

/-- The matcher finds exactly the texts one of whose prefixes the expression matches. -/
theorem matchPrefix_iff (r : Re) (u : List Char) :
    r.matchPrefix u = true ↔ ∃ p q, u = p ++ q ∧ Matches r p := by
  induction u generalizing r with
  | nil =>
    simp only [matchPrefix, nullable_iff]
    constructor
    · intro h; exact ⟨[], [], rfl, h⟩
    · rintro ⟨p, q, h, hp⟩
      have := List.append_eq_nil.mp h.symm
      rw [this.1] at hp; exact hp
  | cons c cs ih =>
    simp only [matchPrefix, Bool.or_eq_true, ih, nullable_iff]
    constructor
    · rintro (h | ⟨p, q, rfl, hp⟩)
      · exact ⟨[], c :: cs, rfl, h⟩
      · exact ⟨c :: p, q, rfl, (deriv_iff r c p).mp hp⟩
    · rintro ⟨p, q, h, hp⟩
      cases p with
      | nil => exact Or.inl hp
      | cons d p' =>
        simp only [List.cons_append, List.cons.injEq] at h
        obtain ⟨rfl, rfl⟩ := h
        exact Or.inr ⟨p', q, rfl, (deriv_iff r c p').mpr hp⟩

theorem matches_chr_iff (c : Char) (u : List Char) : Matches (chr c) u ↔ u = [c] := by
  simp only [chr, matches_cls_iff, beq_iff_eq]
  constructor
  · rintro ⟨d, rfl, rfl⟩; rfl
  · rintro rfl; exact ⟨c, rfl, rfl⟩

theorem matches_lit_iff (cs u : List Char) : Matches (lit cs) u ↔ u = cs := by
  induction cs generalizing u with
  | nil => simp [lit, matches_eps_iff]
  | cons c cs ih =>
    simp only [lit, matches_cat_iff, matches_chr_iff, ih]
    constructor
    · rintro ⟨s, t, rfl, rfl, rfl⟩; rfl
    · rintro rfl; exact ⟨[c], cs, rfl, rfl, rfl⟩

theorem matches_star_cls_iff (p : Char → Bool) (u : List Char) :
    Matches (star (cls p)) u ↔ ∀ c ∈ u, p c = true := by
  induction u with
  | nil => simp [Matches.starNil]
  | cons c cs ih =>
    rw [matches_star_cons]
    simp only [matches_cls_iff, List.mem_cons, forall_eq_or_imp]
    constructor
    · rintro ⟨s, t, rfl, ⟨d, hd, hp⟩, ht⟩
      simp only [List.cons.injEq] at hd
      obtain ⟨rfl, rfl⟩ := hd
      exact ⟨hp, ih.mp ht⟩
    · rintro ⟨hp, hcs⟩
      exact ⟨[], cs, rfl, ⟨c, rfl, hp⟩, ih.mpr hcs⟩

theorem matches_plus_cls_iff (p : Char → Bool) (u : List Char) :
    Matches (plus (cls p)) u ↔ u ≠ [] ∧ ∀ c ∈ u, p c = true := by
  simp only [plus, matches_cat_iff, matches_cls_iff, matches_star_cls_iff]
  constructor
  · rintro ⟨s, t, rfl, ⟨d, rfl, hd⟩, ht⟩
    refine ⟨by simp, ?_⟩
    intro c hc
    simp only [List.singleton_append, List.mem_cons] at hc
    rcases hc with rfl | hc
    · exact hd
    · exact ht c hc
  · rintro ⟨hne, hall⟩
    cases u with
    | nil => exact (hne rfl).elim
    | cons d t =>
      exact ⟨[d], t, rfl, ⟨d, rfl, hall d (List.mem_cons_self _ _)⟩,
        fun c hc => hall c (List.mem_cons_of_mem _ hc)⟩

theorem matches_atLeastTwo_cls_iff (p : Char → Bool) (u : List Char) :
    Matches (atLeastTwo (cls p)) u ↔ 2 ≤ u.length ∧ ∀ c ∈ u, p c = true := by
  simp only [atLeastTwo, matches_cat_iff, matches_cls_iff, matches_star_cls_iff]
  constructor
  · rintro ⟨s, t, rfl, ⟨d, rfl, hd⟩, s2, t2, rfl, ⟨e, rfl, he⟩, ht⟩
    refine ⟨by simp, ?_⟩
    intro c hc
    simp only [List.singleton_append, List.mem_cons] at hc
    rcases hc with rfl | rfl | hc
    · exact hd
    · exact he
    · exact ht c hc
  · rintro ⟨hlen, hall⟩
    match u, hlen, hall with
    | d :: e :: t, _, hall =>
      exact ⟨[d], e :: t, rfl, ⟨d, rfl, hall d (by simp)⟩, [e], t, rfl,
        ⟨e, rfl, hall e (by simp)⟩, fun c hc => hall c (by simp [hc])⟩

end Re

/-! ## What the two patterns of `normalizeImage` recognise -/

theorem registryRe_matches_iff (u : List Char) :
    Re.Matches registryRe u ↔
      ∃ (c0 : Char) (mid tld : List Char), u = c0 :: (mid ++ '.' :: (tld ++ ['/'])) ∧
        isAlnum c0 = true ∧ (∀ c ∈ mid, isHostChar c = true) ∧ 2 ≤ tld.length ∧
        ∀ c ∈ tld, isAlpha c = true := by
  simp only [registryRe, Re.matches_cat_iff, Re.matches_cls_iff, Re.matches_star_cls_iff,
    Re.matches_chr_iff, Re.matches_atLeastTwo_cls_iff]
  constructor
  · rintro ⟨_, _, rfl, ⟨c0, rfl, h0⟩, mid, _, rfl, hmid, _, _, rfl, rfl, tld, _, rfl,
      ⟨hlen, htld⟩, rfl⟩
    exact ⟨c0, mid, tld, rfl, h0, hmid, hlen, htld⟩
  · rintro ⟨c0, mid, tld, rfl, h0, hmid, hlen, htld⟩
    exact ⟨[c0], _, rfl, ⟨c0, rfl, h0⟩, mid, _, rfl, hmid, ['.'], _, rfl, rfl, tld, ['/'],
      rfl, ⟨hlen, htld⟩, rfl⟩

theorem localhostRe_matches_iff (u : List Char) :
    Re.Matches localhostRe u ↔
      ∃ p : List Char, u = "localhost".data ++ (p ++ ['/']) ∧ (p = [] ∨ IsPortSuffix p) := by
  simp only [localhostRe, Re.opt, Re.matches_cat_iff, Re.matches_alt_iff, Re.matches_eps_iff,
    Re.matches_lit_iff, Re.matches_chr_iff, Re.matches_plus_cls_iff, IsPortSuffix]
  constructor
  · rintro ⟨_, _, rfl, rfl, p, _, rfl, hp, rfl⟩
    refine ⟨p, rfl, ?_⟩
    rcases hp with ⟨_, ds, rfl, rfl, hne, hds⟩ | rfl
    · exact Or.inr ⟨ds, rfl, hne, hds⟩
    · exact Or.inl rfl
  · rintro ⟨p, rfl, hp⟩
    refine ⟨_, _, rfl, rfl, p, ['/'], rfl, ?_, rfl⟩
    rcases hp with rfl | ⟨ds, rfl, hne, hds⟩
    · exact Or.inr rfl
    · exact Or.inl ⟨[':'], ds, rfl, rfl, hne, hds⟩

/-- The first test of `normalizeImage` succeeds exactly on the images that start with a
registry host. -/
theorem registry_matchPrefix_iff (image : String) :
    registryRe.matchPrefix image.data = true ↔ BeginsWithRegistry image := by
  rw [Re.matchPrefix_iff]
  simp only [registryRe_matches_iff, BeginsWithRegistry]
  constructor
  · rintro ⟨_, q, h, c0, mid, tld, rfl, h0, hmid, hlen, htld⟩
    exact ⟨c0, mid, tld, q, by simpa using h, h0, hmid, hlen, htld⟩
  · rintro ⟨c0, mid, tld, rest, h, h0, hmid, hlen, htld⟩
    exact ⟨_, rest, by simpa using h, c0, mid, tld, rfl, h0, hmid, hlen, htld⟩

/-- The second test of `normalizeImage` succeeds exactly on the images that start with
`localhost`, an optional port, and `/`. -/
theorem localhost_matchPrefix_iff (image : String) :
    localhostRe.matchPrefix image.data = true ↔ BeginsWithLocalhost image := by
  rw [Re.matchPrefix_iff]
  simp only [localhostRe_matches_iff, BeginsWithLocalhost]
  constructor
  · rintro ⟨_, q, h, p, rfl, hp⟩
    exact ⟨p, q, by simpa using h, hp⟩
  · rintro ⟨p, rest, h, hp⟩
    exact ⟨_, rest, by simpa using h, p, rfl, hp⟩

theorem isAlpha_isHostChar {c : Char} (h : isAlpha c = true) : isHostChar c = true := by
  simp [isHostChar, isAlnum, h]

theorem isAlnum_isHostChar {c : Char} (h : isAlnum c = true) : isHostChar c = true := by
  simp [isHostChar, h]

/-- Every host the first pattern accepts is a dotted hostname. -/
theorem BeginsWithRegistry.dotted {image : String} (h : BeginsWithRegistry image) :
    BeginsWithDottedHost image := by
  obtain ⟨c0, mid, tld, rest, himg, h0, hmid, _, htld⟩ := h
  refine ⟨c0 :: (mid ++ '.' :: tld), rest, by simp [himg], by simp, ?_, by simp⟩
  intro c hc
  simp only [List.mem_cons, List.mem_append] at hc
  rcases hc with rfl | hc | rfl | hc
  · exact isAlnum_isHostChar h0
  · exact hmid c hc
  · decide
  · exact isAlpha_isHostChar (htld c hc)

/-- The images `normalizeImage` prefixes are exactly those neither pattern accepts. -/
theorem normalizeImage_of_no_match (image : String) (h1 : ¬ BeginsWithRegistry image)
    (h2 : ¬ BeginsWithLocalhost image) : normalizeImage image = "docker.io/" ++ image := by
  have e1 : registryRe.matchPrefix image.data = false := by
    rw [← Bool.not_eq_true, registry_matchPrefix_iff]; exact h1
  have e2 : localhostRe.matchPrefix image.data = false := by
    rw [← Bool.not_eq_true, localhost_matchPrefix_iff]; exact h2
  simp [normalizeImage, e1, e2]

/-- The images `normalizeImage` leaves alone are those one of the patterns accepts. -/
theorem normalizeImage_of_match (image : String)
    (h : BeginsWithRegistry image ∨ BeginsWithLocalhost image) : normalizeImage image = image := by
  unfold normalizeImage
  rcases h with h | h
  · rw [if_pos ((registry_matchPrefix_iff image).mpr h)]
  · rw [if_pos ((localhost_matchPrefix_iff image).mpr h)]
    split <;> rfl

/-! ## Claims on `normalizeImage` -/

/-- C1. An image that starts neither with a dotted hostname followed by `/` nor with
`localhost`, an optional `:port` and `/`, is normalised to `docker.io/` followed by the
image itself, unchanged. The same holds with "dotted hostname" narrowed to the hosts the
first pattern accepts (last label of two or more letters), which leaves more images
without a host. -/
theorem normalizeImage_prepends_docker_io (image : String) :
    (¬ BeginsWithDottedHost image → ¬ BeginsWithLocalhost image →
      normalizeImage image = "docker.io/" ++ image) ∧
    (¬ BeginsWithRegistry image → ¬ BeginsWithLocalhost image →
      normalizeImage image = "docker.io/" ++ image) :=
  ⟨fun hdot hloc => normalizeImage_of_no_match image (fun h => hdot h.dotted) hloc,
    fun hreg hloc => normalizeImage_of_no_match image hreg hloc⟩

theorem normalizeImage_prepends_docker_io_witness :
    (¬ BeginsWithDottedHost "library/nginx" ∧ ¬ BeginsWithLocalhost "library/nginx" ∧
      normalizeImage "library/nginx" = "docker.io/" ++ "library/nginx") ∧
    (¬ BeginsWithRegistry "10.0.0.1/img" ∧ ¬ BeginsWithLocalhost "10.0.0.1/img" ∧
      normalizeImage "10.0.0.1/img" = "docker.io/" ++ "10.0.0.1/img") := by
  have hdot : ¬ BeginsWithDottedHost "library/nginx" := by
    rintro ⟨h, rest, himg, -, -, hmem⟩
    have : '.' ∈ "library/nginx".data := by rw [himg]; simp [hmem]
    revert this; decide
  have hloc : ¬ BeginsWithLocalhost "library/nginx" :=
    fun h => absurd ((localhost_matchPrefix_iff _).mpr h) (by decide)
  have hreg : ¬ BeginsWithRegistry "10.0.0.1/img" :=
    fun h => absurd ((registry_matchPrefix_iff _).mpr h) (by decide)
  have hloc2 : ¬ BeginsWithLocalhost "10.0.0.1/img" :=
    fun h => absurd ((localhost_matchPrefix_iff _).mpr h) (by decide)
  exact ⟨⟨hdot, hloc, (normalizeImage_prepends_docker_io "library/nginx").1 hdot hloc⟩,
    ⟨hreg, hloc2, (normalizeImage_prepends_docker_io "10.0.0.1/img").2 hreg hloc2⟩⟩

/-- C2, the code at two images that already have a registry. A dotted host with a port, and
a dotted host whose last label is numeric, are DNS-like hosts, yet `normalizeImage` does not
return these images as they are: it puts `docker.io/` in front of them, against its own
comment ("If image already has a registry, return as-is") and unlike the `localhost`
pattern, which accepts a port. -/
theorem normalizeImage_dns_like_not_identity :
    (BeginsWithDnsLikeHost "registry.example.com:5000/img" ∧
      normalizeImage "registry.example.com:5000/img"
        = "docker.io/registry.example.com:5000/img" ∧
      normalizeImage "registry.example.com:5000/img" ≠ "registry.example.com:5000/img") ∧
    (BeginsWithDnsLikeHost "10.0.0.1/img" ∧
      normalizeImage "10.0.0.1/img" = "docker.io/10.0.0.1/img" ∧
      normalizeImage "10.0.0.1/img" ≠ "10.0.0.1/img") := by
  refine ⟨⟨?_, by decide, by decide⟩, ⟨?_, by decide, by decide⟩⟩
  · refine ⟨"registry.example.com".data, ":5000".data, "img".data, rfl, Or.inl ?_,
      Or.inr ⟨"5000".data, rfl, by decide, by decide⟩⟩
    exact ⟨by decide, by decide, by decide⟩
  · refine ⟨"10.0.0.1".data, [], "img".data, rfl, Or.inl ?_, Or.inl rfl⟩
    exact ⟨by decide, by decide, by decide⟩

/-- The images `normalizeImage` does return as they are: an image that starts with a
registry host ending in a dot and a last label of two or more letters, with `/` right after
it, or with `localhost`, an optional `:port` and `/`. -/
theorem normalizeImage_identity_on_registry (image : String)
    (h : BeginsWithRegistry image ∨ BeginsWithLocalhost image) :
    normalizeImage image = image :=
  normalizeImage_of_match image h

theorem normalizeImage_identity_on_registry_witness :
    (BeginsWithRegistry "public.ecr.aws/orga/img" ∨
        BeginsWithLocalhost "public.ecr.aws/orga/img") ∧
      normalizeImage "public.ecr.aws/orga/img" = "public.ecr.aws/orga/img" := by
  have h : BeginsWithRegistry "public.ecr.aws/orga/img" :=
    ⟨'p', "ublic.ecr".data, "aws".data, "orga/img".data, rfl, by decide, by decide, by decide,
      by decide⟩
  exact ⟨Or.inl h, normalizeImage_identity_on_registry "public.ecr.aws/orga/img" (Or.inl h)⟩

/-- C3, the code at the inputs of `TestNormalizeImage`. No `library/` namespace is inserted:
a bare name only gets `docker.io/`, and `docker.io/<name>` is returned as it is. -/
theorem normalizeImage_inserts_no_library :
    normalizeImage "nginx:latest" = "docker.io/nginx:latest" ∧
    normalizeImage "nginx:latest" ≠ "docker.io/library/nginx:latest" ∧
    normalizeImage "docker.io/caddy:2.7.6-alpine" = "docker.io/caddy:2.7.6-alpine" ∧
    normalizeImage "docker.io/caddy:2.7.6-alpine" ≠ "docker.io/library/caddy:2.7.6-alpine" ∧
    normalizeImage "library/nginx" = "docker.io/library/nginx" ∧
    normalizeImage "docker.io/myorg/myimage:latest" = "docker.io/myorg/myimage:latest" := by
  decide

/-! ## Claims on `mutateImage` -/

/-- Rules that do not apply are passed over. -/
theorem mutateImageLoop_skip (image norm : String) (pod : Pod) (pre rest : List compiledRule)
    (hpre : ∀ q ∈ pre, (checkConditions q.rule pod && q.regex.MatchString norm) = false) :
    mutateImageLoop image norm pod (pre ++ rest) = mutateImageLoop image norm pod rest := by
  induction pre with
  | nil => rfl
  | cons q pre ih =>
    have hq := hpre q (List.mem_cons_self _ _)
    have ih1 := ih (fun x hx => hpre x (List.mem_cons_of_mem _ hx))
    simp only [List.cons_append, mutateImageLoop]
    cases hc : checkConditions q.rule pod with
    | false => simpa using ih1
    | true =>
      rw [hc, Bool.true_and] at hq
      simpa [hq] using ih1

/-- The loop returns at the first rule that applies. -/
theorem mutateImageLoop_first (image norm : String) (pod : Pod) (pre post : List compiledRule)
    (r : compiledRule)
    (hpre : ∀ q ∈ pre, (checkConditions q.rule pod && q.regex.MatchString norm) = false)
    (hr : (checkConditions r.rule pod && r.regex.MatchString norm) = true) :
    mutateImageLoop image norm pod (pre ++ r :: post) = r.regex.ReplaceAllString norm r.replace := by
  rw [mutateImageLoop_skip image norm pod pre _ hpre]
  simp only [Bool.and_eq_true] at hr
  simp [mutateImageLoop, hr.1, hr.2]

/-- A list with an element satisfying `p` splits at the first such element. -/
theorem exists_first_split {α : Type} (p : α → Bool) (l : List α) (h : ∃ x ∈ l, p x = true) :
    ∃ pre x post, l = pre ++ x :: post ∧ (∀ q ∈ pre, p q = false) ∧ p x = true := by
  induction l with
  | nil => obtain ⟨x, hx, _⟩ := h; cases hx
  | cons a l ih =>
    cases ha : p a with
    | true => exact ⟨[], a, l, rfl, by simp, ha⟩
    | false =>
      have h1 : ∃ x ∈ l, p x = true := by
        obtain ⟨x, hx, hpx⟩ := h
        rcases List.mem_cons.mp hx with rfl | hx
        · rw [ha] at hpx; cases hpx
        · exact ⟨x, hx, hpx⟩
      obtain ⟨pre, x, post, rfl, hpre, hx⟩ := ih h1
      refine ⟨a :: pre, x, post, rfl, ?_, hx⟩
      intro q hq
      rcases List.mem_cons.mp hq with rfl | hq
      · exact ha
      · exact hpre q hq

/-- C4. If some rule of the sequence applies (its conditions hold for the pod and its
pattern matches the normalised image), the sequence splits at the first such rule, and
`mutateImage` returns what that rule's `ReplaceAllString` makes of the normalised image
with the rule's template, whatever rules follow it. -/
theorem mutateImage_first_match_wins (image : String) (pod : Pod) (rules : List compiledRule)
    (h : ∃ r ∈ rules, ruleApplies image pod r = true) :
    ∃ pre r post, rules = pre ++ r :: post ∧
      (∀ q ∈ pre, ruleApplies image pod q = false) ∧ ruleApplies image pod r = true ∧
      mutateImage image rules pod
        = r.regex.ReplaceAllString (normalizeImage image) r.replace ∧
      ∀ post2, mutateImage image (pre ++ r :: post2) pod
        = r.regex.ReplaceAllString (normalizeImage image) r.replace := by
  obtain ⟨pre, r, post, rfl, hpre, hr⟩ := exists_first_split (ruleApplies image pod) rules h
  exact ⟨pre, r, post, rfl, hpre, hr,
    mutateImageLoop_first image _ pod pre post r hpre hr,
    fun post2 => mutateImageLoop_first image _ pod pre post2 r hpre hr⟩

theorem mutateImage_first_match_wins_witness :
    ∃ pre r post, [nginxRule, dockerIoRule "ecr.aws/dockerhub/$1" 50] = pre ++ r :: post ∧
      (∀ q ∈ pre, ruleApplies "library/nginx:1.25" testPod q = false) ∧
      ruleApplies "library/nginx:1.25" testPod r = true ∧
      mutateImage "library/nginx:1.25" [nginxRule, dockerIoRule "ecr.aws/dockerhub/$1" 50]
          testPod
        = r.regex.ReplaceAllString (normalizeImage "library/nginx:1.25") r.replace ∧
      ∀ post2, mutateImage "library/nginx:1.25" (pre ++ r :: post2) testPod
        = r.regex.ReplaceAllString (normalizeImage "library/nginx:1.25") r.replace :=
  mutateImage_first_match_wins "library/nginx:1.25" testPod
    [nginxRule, dockerIoRule "ecr.aws/dockerhub/$1" 50]
    ⟨dockerIoRule "ecr.aws/dockerhub/$1" 50, by simp, by decide⟩

/-- C5. If no rule applies (none has both its conditions satisfied by the pod and its
pattern matching the normalised image; the empty sequence included), `mutateImage` returns
the image exactly as it was given, not its normalised form. -/
theorem mutateImage_no_match (image : String) (pod : Pod) (rules : List compiledRule)
    (h : ∀ r ∈ rules, ruleApplies image pod r = false) :
    mutateImage image rules pod = image := by
  have := mutateImageLoop_skip image (normalizeImage image) pod rules [] h
  simpa [mutateImage, mutateImageLoop] using this

theorem mutateImage_no_match_witness :
    (∀ r ∈ [nginxRule], ruleApplies "redis:alpine" testPod r = false) ∧
      mutateImage "redis:alpine" [nginxRule] testPod = "redis:alpine" :=
  ⟨by decide, mutateImage_no_match "redis:alpine" testPod [nginxRule] (by decide)⟩

/-- C6, the code at the inputs of the tests. With the single unconditioned rule
`^docker\.io/(.*)` the image `nginx:latest` becomes `ecr.aws/dockerhub/nginx:latest`, and
`docker.io/caddy:2.7.6-alpine` and `caddy:2.7.6-alpine` become `<target>/caddy:2.7.6-alpine`:
no `library/` namespace is inserted before the rule's pattern is applied. -/
theorem mutateImage_inserts_no_library :
    mutateImage "nginx:latest" [dockerIoRule "ecr.aws/dockerhub/$1" 0] testPod
      = "ecr.aws/dockerhub/nginx:latest" ∧
    mutateImage "nginx:latest" [dockerIoRule "ecr.aws/dockerhub/$1" 0] testPod
      ≠ "ecr.aws/dockerhub/library/nginx:latest" ∧
    mutateImage "docker.io/caddy:2.7.6-alpine"
        [dockerIoRule "toto.dkr.ecr.eu-west-1.amazonaws.com/dockerhub/$1" 0] testPod
      = "toto.dkr.ecr.eu-west-1.amazonaws.com/dockerhub/caddy:2.7.6-alpine" ∧
    mutateImage "caddy:2.7.6-alpine"
        [dockerIoRule "toto.dkr.ecr.eu-west-1.amazonaws.com/dockerhub/$1" 0] testPod
      = "toto.dkr.ecr.eu-west-1.amazonaws.com/dockerhub/caddy:2.7.6-alpine" := by
  decide

/-! ## Claims on `checkConditions` -/

/-- A rule whose conditions fail for the pod can be taken out of the sequence. -/
theorem mutateImageLoop_remove (image norm : String) (pod : Pod) (pre post : List compiledRule)
    (r : compiledRule) (hr : checkConditions r.rule pod = false) :
    mutateImageLoop image norm pod (pre ++ r :: post)
      = mutateImageLoop image norm pod (pre ++ post) := by
  induction pre with
  | nil => simp [mutateImageLoop, hr]
  | cons q pre ih =>
    rw [List.cons_append, List.cons_append, mutateImageLoop, mutateImageLoop, ih]

theorem checkConditions_namespace_miss (rule : Rule) (conds : RuleConditions) (pod : Pod)
    (hc : rule.Conditions = some conds) (hne : conds.Namespaces ≠ [])
    (hns : pod.Namespace ∉ conds.Namespaces) : checkConditions rule pod = false := by
  have hlen : 0 < conds.Namespaces.length := List.length_pos.mpr hne
  have hany : conds.Namespaces.any (fun ns => ns == pod.Namespace) = false := by
    rw [Bool.eq_false_iff]
    intro h
    obtain ⟨ns, hmem, heq⟩ := List.any_eq_true.mp h
    exact hns (by simpa using (beq_iff_eq.mp heq) ▸ hmem)
  simp [checkConditions, hc, hlen, hany]

/-- C8. (1) A rule whose conditions list a non-empty set of namespaces fails
`checkConditions` for a pod whose namespace is not in the set; (2) `mutateImage` then gives
the same result with the rule as without it, for every image and whatever the rule's
pattern; (3) when the pod's namespace is in the set and there are no label conditions,
`checkConditions` holds; (4) a rule with no conditions always passes. -/
theorem checkConditions_namespaces :
    (∀ (rule : Rule) (conds : RuleConditions) (pod : Pod), rule.Conditions = some conds →
      conds.Namespaces ≠ [] → pod.Namespace ∉ conds.Namespaces →
      checkConditions rule pod = false) ∧
    (∀ (r : compiledRule) (conds : RuleConditions) (pod : Pod), r.rule.Conditions = some conds →
      conds.Namespaces ≠ [] → pod.Namespace ∉ conds.Namespaces →
      ∀ (image : String) (pre post : List compiledRule),
        mutateImage image (pre ++ r :: post) pod = mutateImage image (pre ++ post) pod) ∧
    (∀ (rule : Rule) (conds : RuleConditions) (pod : Pod), rule.Conditions = some conds →
      pod.Namespace ∈ conds.Namespaces → GoMap.len conds.Labels = 0 →
      checkConditions rule pod = true) ∧
    (∀ (rule : Rule) (pod : Pod), rule.Conditions = none → checkConditions rule pod = true) := by
  refine ⟨checkConditions_namespace_miss, ?_, ?_, ?_⟩
  · intro r conds pod hc hne hns image pre post
    exact mutateImageLoop_remove image _ pod pre post r
      (checkConditions_namespace_miss r.rule conds pod hc hne hns)
  · intro rule conds pod hc hns hlab
    have hany : conds.Namespaces.any (fun ns => ns == pod.Namespace) = true :=
      List.any_eq_true.mpr ⟨pod.Namespace, hns, by simp⟩
    simp [checkConditions, hc, hany, hlab]
  · intro rule pod hc
    simp [checkConditions, hc]

theorem checkConditions_namespaces_witness :
    checkConditions (namespaceRule ["kube-system"]).rule testPod = false ∧
    mutateImage "nginx" ([nginxRule] ++ namespaceRule ["kube-system"] :: []) testPod
      = mutateImage "nginx" ([nginxRule] ++ []) testPod ∧
    checkConditions (namespaceRule ["kube-system", "default"]).rule testPod = true ∧
    checkConditions nginxRule.rule testPod = true :=
  ⟨checkConditions_namespaces.1 _ ⟨["kube-system"], none⟩ testPod rfl (by decide) (by decide),
    checkConditions_namespaces.2.1 (namespaceRule ["kube-system"]) ⟨["kube-system"], none⟩
      testPod rfl (by decide) (by decide) "nginx" [nginxRule] [],
    checkConditions_namespaces.2.2.1 _ ⟨["kube-system", "default"], none⟩ testPod rfl
      (by decide) rfl,
    checkConditions_namespaces.2.2.2 _ testPod rfl⟩

/-- C9, the code at a rule that lists the label `tier` with the empty value and a pod that
has no labels at all: the listed key is absent from the pod's labels, and `checkConditions`
holds all the same, the lookup of an absent key giving the empty string. -/
theorem checkConditions_absent_label_passes :
    GoMap.find? testPod.Labels "tier" = none ∧
    checkConditions (labelRule (some [("tier", "")])) testPod = true ∧
    GoMap.find? (some [("app", "nginx")]) "tier" = none ∧
    checkConditions (labelRule (some [("app", "nginx"), ("tier", "")]))
      { testPod with Labels := some [("app", "nginx")] } = true := by
  decide

/-! ## Claims on `Handle` -/

/-- C10. When the Pod decodes and carries the annotation `rewrite-disabled` with the value
`true`, `Handle` answers `Allowed` (a response without patch) and hands back the mutator
state as it was: the cache, the hit and miss counters and the count of `Client.List` calls
are untouched, so neither the cache nor the Rule Store was read, whatever they hold. -/
theorem Handle_rewrite_disabled (codec : Codec) (Compile : String → Option Regexp)
    (m : PodMutator) (req : Request) (pod : Pod) (hdec : codec.Decode req = .ok pod)
    (hann : GoMap.find? pod.Annotations "rewrite-disabled" = some "true") :
    Handle codec Compile m req = (Response.Allowed "rewrite disabled", m) := by
  have hsome : pod.Annotations.isSome = true := by
    cases ha : pod.Annotations with
    | none => rw [ha] at hann; simp [GoMap.find?, GoMap.entries] at hann
    | some es => rfl
  have hget : GoMap.get pod.Annotations "rewrite-disabled" = "true" := by
    simp [GoMap.get, hann]
  simp [Handle, hdec, hsome, hget]

theorem Handle_rewrite_disabled_witness :
    Handle (testCodec disabledPod) testCompile
        (testMutator [(dockerIoRule "ecr.aws/dockerhub/$1" 0).rule])
        { Namespace := "default", Raw := "raw" }
      = (Response.Allowed "rewrite disabled",
          testMutator [(dockerIoRule "ecr.aws/dockerhub/$1" 0).rule]) :=
  Handle_rewrite_disabled _ _ _ _ disabledPod rfl (by decide)

/-! ## Claims on `getRules` -/

theorem insertLeft_perm {α : Type} (less : α → α → Bool) (x : α) (rev : List α) :
    (insertLeft less x rev).Perm (x :: rev) := by
  induction rev with
  | nil => exact List.Perm.refl _
  | cons y rev ih =>
    simp only [insertLeft]
    split
    · exact ((List.Perm.cons y ih).trans (List.Perm.swap x y rev))
    · exact List.Perm.refl _

theorem foldl_insertLeft_perm {α : Type} (less : α → α → Bool) (xs acc : List α) :
    (xs.foldl (fun rev x => insertLeft less x rev) acc).Perm (xs ++ acc) := by
  induction xs generalizing acc with
  | nil => exact List.Perm.refl _
  | cons x xs ih =>
    simp only [List.foldl_cons, List.cons_append]
    refine (ih _).trans ?_
    exact (List.Perm.append_left xs (insertLeft_perm less x acc)).trans
      List.perm_middle

/-- The sort returns a permutation of its input. -/
theorem sortSlice_perm {α : Type} (less : α → α → Bool) (xs : List α) :
    (sortSlice less xs).Perm xs := by
  unfold sortSlice
  refine (List.reverse_perm _).trans ?_
  simpa using foldl_insertLeft_perm less xs []

theorem insertLeft_sorted {α : Type} (key : α → Int) (x : α) (rev : List α)
    (h : rev.Pairwise (fun a b => key a ≤ key b)) :
    (insertLeft (fun a b => decide (key a > key b)) x rev).Pairwise
      (fun a b => key a ≤ key b) := by
  induction rev with
  | nil => simp [insertLeft]
  | cons y rev ih =>
    rw [List.pairwise_cons] at h
    simp only [insertLeft]
    by_cases hxy : key x > key y
    · simp only [hxy, decide_True, if_true]
      rw [List.pairwise_cons]
      refine ⟨?_, ih h.2⟩
      intro z hz
      have hz1 := (insertLeft_perm (fun a b => decide (key a > key b)) x rev).subset hz
      rcases List.mem_cons.mp hz1 with rfl | hz2
      · exact le_of_lt hxy
      · exact h.1 z hz2
    · simp only [hxy, decide_False, Bool.false_eq_true, if_false]
      rw [List.pairwise_cons]
      refine ⟨?_, List.pairwise_cons.mpr h⟩
      intro z hz
      have hle : key x ≤ key y := not_lt.mp hxy
      rcases List.mem_cons.mp hz with rfl | hz2
      · exact hle
      · exact le_trans hle (h.1 z hz2)

theorem foldl_insertLeft_sorted {α : Type} (key : α → Int) (xs acc : List α)
    (h : acc.Pairwise (fun a b => key a ≤ key b)) :
    (xs.foldl (fun rev x => insertLeft (fun a b => decide (key a > key b)) x rev) acc).Pairwise
      (fun a b => key a ≤ key b) := by
  induction xs generalizing acc with
  | nil => exact h
  | cons x xs ih => exact ih _ (insertLeft_sorted key x acc h)

/-- Sorting with "greater key first" leaves the keys in non-increasing order. -/
theorem sortSlice_sorted {α : Type} (key : α → Int) (xs : List α) :
    (sortSlice (fun a b => decide (key a > key b)) xs).Pairwise (fun a b => key a ≥ key b) := by
  unfold sortSlice
  rw [List.pairwise_reverse]
  exact foldl_insertLeft_sorted key xs [] List.Pairwise.nil

/-- The compile loop keeps, in order, the declared rules whose pattern compiles. -/
theorem compileRules_rules (Compile : String → Option Regexp)
    (items : List RegistryRewriteRule) :
    (compileRules Compile items).map (fun cr => cr.rule)
      = (items.flatMap (fun rr => rr.Spec.Rules)).filter
          (fun rule => (Compile rule.Match).isSome) := by
  have inner : ∀ rules : List Rule,
      (rules.filterMap (fun rule =>
        match Compile rule.Match with
        | none => none
        | some regex =>
          some ({ rule := rule, regex := regex, replace := rule.Replace } : compiledRule))).map
          (fun cr => cr.rule)
        = rules.filter (fun rule => (Compile rule.Match).isSome) := by
    intro rules
    induction rules with
    | nil => rfl
    | cons r rules ih =>
      cases hc : Compile r.Match with
      | none => simp [List.filterMap_cons, List.filter_cons, hc, ih]
      | some regex => simp [List.filterMap_cons, List.filter_cons, hc, ih]
  induction items with
  | nil => rfl
  | cons rr items ih =>
    simp only [compileRules, List.flatMap_cons, List.map_append, List.filter_append] at ih ⊢
    rw [ih, inner]

/-- Every compiled rule carries the compiled form of its own pattern and its own template. -/
theorem compileRules_fields (Compile : String → Option Regexp)
    (items : List RegistryRewriteRule) :
    ∀ cr ∈ compileRules Compile items,
      Compile cr.rule.Match = some cr.regex ∧ cr.replace = cr.rule.Replace := by
  intro cr hcr
  simp only [compileRules, List.mem_flatMap, List.mem_filterMap] at hcr
  obtain ⟨rr, _, rule, _, hrule⟩ := hcr
  cases hc : Compile rule.Match with
  | none => rw [hc] at hrule; cases hrule
  | some regex =>
    rw [hc] at hrule
    simp only [Option.some.injEq] at hrule
    subst hrule
    exact ⟨hc, rfl⟩

/-- A rebuild that gets the items from the Rule Store. -/
theorem getRules_rebuild_eq (Compile : String → Option Regexp) (m : PodMutator)
    (items : List RegistryRewriteRule) (hlist : m.Client.List = .ok items)
    (hempty : cacheIsEmpty m = true) :
    getRules Compile m
      = (.ok (sortSlice priorityLess (compileRules Compile items)),
          { m with cacheMisses := m.cacheMisses + 1, listCalls := m.listCalls + 1,
                   rulesCache := some
                     { rules := sortSlice priorityLess (compileRules Compile items) },
                   rulesCount := (sortSlice priorityLess (compileRules Compile items)).length }) := by
  have hreb : getRules Compile m = rebuildRules Compile m := by
    unfold getRules
    cases hc : m.rulesCache with
    | none => rfl
    | some cache =>
      have : cache.rules.length = 0 := by simpa [cacheIsEmpty, hc] using hempty
      simp [this]
  rw [hreb]
  simp [rebuildRules, hlist]

/-- C7. When the cache is empty and the Rule Store's list succeeds with `items`, `getRules`
returns no error but a sequence `rules` such that (i) the rules in it are, up to order,
exactly the declared rules whose `Match` pattern compiles, each as often as it is declared,
every compiled rule carrying the compiled form of its own pattern and its own template, and
(ii) priorities are non-increasing along the sequence. -/
theorem getRules_rebuild_sorted (Compile : String → Option Regexp) (m : PodMutator)
    (items : List RegistryRewriteRule) (hlist : m.Client.List = .ok items)
    (hempty : cacheIsEmpty m = true) :
    ∃ rules, (getRules Compile m).1 = .ok rules ∧
      (rules.map (fun cr => cr.rule)).Perm
        ((items.flatMap (fun rr => rr.Spec.Rules)).filter
          (fun rule => (Compile rule.Match).isSome)) ∧
      (∀ cr ∈ rules, Compile cr.rule.Match = some cr.regex ∧ cr.replace = cr.rule.Replace) ∧
      rules.Pairwise (fun a b => a.rule.Priority ≥ b.rule.Priority) := by
  refine ⟨sortSlice priorityLess (compileRules Compile items), ?_, ?_, ?_, ?_⟩
  · rw [getRules_rebuild_eq Compile m items hlist hempty]
  · rw [← compileRules_rules]
    exact (sortSlice_perm _ _).map _
  · intro cr hcr
    exact compileRules_fields Compile items cr ((sortSlice_perm _ _).subset hcr)
  · exact sortSlice_sorted (fun cr : compiledRule => cr.rule.Priority) _

theorem getRules_rebuild_sorted_witness :
    ∃ rules, (getRules testCompile (testMutator
        [(dockerIoRule "ecr.aws/dockerhub/$1" 50).rule, brokenRule, nginxRule.rule])).1
        = .ok rules ∧
      (rules.map (fun cr => cr.rule)).Perm
        ((([{ Name := "hub", Spec := { Rules :=
            [(dockerIoRule "ecr.aws/dockerhub/$1" 50).rule, brokenRule, nginxRule.rule] } }] :
              List RegistryRewriteRule).flatMap (fun rr => rr.Spec.Rules)).filter
          (fun rule => (testCompile rule.Match).isSome)) ∧
      (∀ cr ∈ rules,
        testCompile cr.rule.Match = some cr.regex ∧ cr.replace = cr.rule.Replace) ∧
      rules.Pairwise (fun a b => a.rule.Priority ≥ b.rule.Priority) :=
  getRules_rebuild_sorted testCompile _ _ rfl rfl

/-! ## Idempotence of `normalizeImage` -/

/-- Whatever follows it, the prefix `docker.io/` is a registry host of the accepted shape. -/
theorem beginsWithRegistry_docker_io (image : String) :
    BeginsWithRegistry ("docker.io/" ++ image) :=
  ⟨'d', "ocker".data, "io".data, image.data, by simp [String.data_append], by decide,
    by decide, by decide, by decide⟩

/-- The output of `normalizeImage` passes one of the two tests of `normalizeImage`. -/
theorem normalizeImage_has_host (x : String) :
    BeginsWithRegistry (normalizeImage x) ∨ BeginsWithLocalhost (normalizeImage x) := by
  unfold normalizeImage
  by_cases h1 : registryRe.matchPrefix x.data = true
  · rw [if_pos h1]; exact Or.inl ((registry_matchPrefix_iff x).mp h1)
  · rw [if_neg h1]
    by_cases h2 : localhostRe.matchPrefix x.data = true
    · rw [if_pos h2]; exact Or.inr ((localhost_matchPrefix_iff x).mp h2)
    · rw [if_neg h2]; exact Or.inl (beginsWithRegistry_docker_io x)

/-- C13. For every input the output of `normalizeImage` begins with a dotted hostname
followed by `/` (indeed with one of the shape the first pattern accepts) or with
`localhost`, an optional `:port` and `/`; and `normalizeImage` is idempotent. -/
theorem normalizeImage_idempotent (x : String) :
    (BeginsWithDottedHost (normalizeImage x) ∨ BeginsWithLocalhost (normalizeImage x)) ∧
    (BeginsWithRegistry (normalizeImage x) ∨ BeginsWithLocalhost (normalizeImage x)) ∧
    normalizeImage (normalizeImage x) = normalizeImage x :=
  ⟨(normalizeImage_has_host x).imp (fun h => h.dotted) id, normalizeImage_has_host x,
    normalizeImage_of_match _ (normalizeImage_has_host x)⟩

/-! ## Failure of the Rule Store -/

/-- A pod that does not carry `rewrite-disabled: "true"` passes the annotation test of
`Handle`. -/
theorem not_disabled_test (pod : Pod)
    (hann : GoMap.find? pod.Annotations "rewrite-disabled" ≠ some "true") :
    (pod.Annotations.isSome && GoMap.get pod.Annotations "rewrite-disabled" == "true")
      = false := by
  have hget : GoMap.get pod.Annotations "rewrite-disabled" ≠ "true" := by
    intro h
    unfold GoMap.get at h
    cases hf : GoMap.find? pod.Annotations "rewrite-disabled" with
    | none => rw [hf] at h; revert h; decide
    | some v =>
      rw [hf] at h
      simp only [Option.getD_some] at h
      exact hann (by rw [hf, h])
  simp [hget]

/-- A rebuild whose list call fails: the error is passed on, only the miss counter and
the count of list calls change. -/
theorem getRules_list_error_eq (Compile : String → Option Regexp) (m : PodMutator)
    (err : String) (hlist : m.Client.List = .error err) (hempty : cacheIsEmpty m = true) :
    getRules Compile m
      = (.error ("failed to list RegistryRewriteRule: " ++ err),
          { m with cacheMisses := m.cacheMisses + 1, listCalls := m.listCalls + 1 }) := by
  have hreb : getRules Compile m = rebuildRules Compile m := by
    unfold getRules
    cases hc : m.rulesCache with
    | none => rfl
    | some cache =>
      have : cache.rules.length = 0 := by simpa [cacheIsEmpty, hc] using hempty
      simp [this]
  rw [hreb]
  simp [rebuildRules, hlist]

/-- C11. When the Pod decodes and is not disabled by annotation, the cache is empty and the
Rule Store's list fails, `Handle` answers `Allowed` (a response without patch, neither an
error nor a denial), and the failing `getRules` call returns the error and leaves the rule
cache as it was. -/
theorem Handle_fail_open (codec : Codec) (Compile : String → Option Regexp) (m : PodMutator)
    (req : Request) (pod : Pod) (err : String) (hdec : codec.Decode req = .ok pod)
    (hann : GoMap.find? pod.Annotations "rewrite-disabled" ≠ some "true")
    (hempty : cacheIsEmpty m = true) (hlist : m.Client.List = .error err) :
    (Handle codec Compile m req).1 = Response.Allowed "failed to get rules" ∧
    (Handle codec Compile m req).2.rulesCache = m.rulesCache ∧
    (∃ e, (getRules Compile m).1 = .error e) ∧
    (getRules Compile m).2.rulesCache = m.rulesCache := by
  have hg := getRules_list_error_eq Compile m err hlist hempty
  have hnd := not_disabled_test pod hann
  refine ⟨?_, ?_, ⟨_, by rw [hg]⟩, by rw [hg]⟩
  · simp only [Handle, hdec, hnd, hg]
    rfl
  · simp only [Handle, hdec, hnd, hg]
    rfl

theorem Handle_fail_open_witness :
    (Handle (testCodec webPod) testCompile (mutatorOver { List := .error "store down" })
        { Namespace := "default", Raw := "raw" }).1 = Response.Allowed "failed to get rules" ∧
    (Handle (testCodec webPod) testCompile (mutatorOver { List := .error "store down" })
        { Namespace := "default", Raw := "raw" }).2.rulesCache
      = (mutatorOver { List := .error "store down" }).rulesCache ∧
    (∃ e, (getRules testCompile (mutatorOver { List := .error "store down" })).1 = .error e) ∧
    (getRules testCompile (mutatorOver { List := .error "store down" })).2.rulesCache
      = (mutatorOver { List := .error "store down" }).rulesCache :=
  Handle_fail_open (testCodec webPod) testCompile _ _ webPod "store down" rfl (by decide) rfl
    rfl

/-! ## The cache after an invalidation -/

/-- A call on a cache that holds rules returns them and only counts a hit. -/
theorem getRules_hit_eq (Compile : String → Option Regexp) (m : PodMutator)
    (cache : rulesCache) (hc : m.rulesCache = some cache) (hne : cache.rules ≠ []) :
    getRules Compile m = (.ok cache.rules, { m with cacheHits := m.cacheHits + 1 }) := by
  have hlen : 0 < cache.rules.length := List.length_pos.mpr hne
  simp [getRules, hc, hlen]

/-- Calls on a cache that holds rules never reach the Rule Store. -/
theorem getRulesTimes_hits (Compile : String → Option Regexp) (n : Nat) (m : PodMutator)
    (cache : rulesCache) (hc : m.rulesCache = some cache) (hne : cache.rules ≠ []) :
    (getRulesTimes Compile n m).1 = List.replicate n (.ok cache.rules) ∧
    (getRulesTimes Compile n m).2.listCalls = m.listCalls ∧
    (getRulesTimes Compile n m).2.cacheMisses = m.cacheMisses ∧
    (getRulesTimes Compile n m).2.cacheHits = m.cacheHits + n := by
  induction n generalizing m with
  | zero => exact ⟨rfl, rfl, rfl, rfl⟩
  | succ n ih =>
    have hg := getRules_hit_eq Compile m cache hc hne
    have ih1 := ih { m with cacheHits := m.cacheHits + 1 } hc
    simp only [getRulesTimes, hg, List.replicate_succ]
    refine ⟨by rw [ih1.1], ih1.2.1, ih1.2.2.1, ?_⟩
    rw [ih1.2.2.2]
    simp only []
    omega

/-- When the store's rules compile to nothing, the cache stays empty and every call goes to
the Rule Store again. -/
theorem getRulesTimes_empty (Compile : String → Option Regexp) (n : Nat) (m : PodMutator)
    (items : List RegistryRewriteRule) (hlist : m.Client.List = .ok items)
    (hempty : cacheIsEmpty m = true)
    (hnil : sortSlice priorityLess (compileRules Compile items) = []) :
    (getRulesTimes Compile n m).1 = List.replicate n (.ok []) ∧
    (getRulesTimes Compile n m).2.listCalls = m.listCalls + n := by
  induction n generalizing m with
  | zero => exact ⟨rfl, rfl⟩
  | succ n ih =>
    have hg := getRules_rebuild_eq Compile m items hlist hempty
    rw [hnil] at hg
    have ih1 := ih { m with cacheMisses := m.cacheMisses + 1, listCalls := m.listCalls + 1,
                            rulesCache := some { rules := [] },
                            rulesCount := ([] : List compiledRule).length } hlist rfl
    simp only [getRulesTimes, hg, List.replicate_succ]
    refine ⟨by rw [ih1.1], ?_⟩
    rw [ih1.2]
    simp only []
    omega

/-- The sorted compiled rules are empty exactly when no declared pattern compiles. -/
theorem sorted_rules_eq_nil_iff (Compile : String → Option Regexp)
    (items : List RegistryRewriteRule) :
    sortSlice priorityLess (compileRules Compile items) = [] ↔
      ∀ rule ∈ items.flatMap (fun rr => rr.Spec.Rules),
        (Compile rule.Match).isSome = false := by
  have h1 : sortSlice priorityLess (compileRules Compile items) = [] ↔
      compileRules Compile items = [] := by
    constructor
    · intro h
      have hp := sortSlice_perm priorityLess (compileRules Compile items)
      rw [h] at hp
      exact List.Perm.eq_nil hp.symm
    · intro h; rw [h]; rfl
  have h2 : compileRules Compile items = [] ↔
      (compileRules Compile items).map (fun cr => cr.rule) = [] := by
    simp
  rw [h1, h2, compileRules_rules, List.filter_eq_nil_iff]
  simp

/-- C12, counterexample. With a Rule Store that holds no rule set, or only a rule whose
pattern does not compile, two consecutive `getRules` calls after `InvalidateCache` list the
Rule Store twice, not once. -/
theorem getRules_empty_store_lists_twice :
    (InvalidateCache (mutatorOver { List := .ok [] })).listCalls = 0 ∧
    (getRulesTimes testCompile 2 (InvalidateCache (mutatorOver { List := .ok [] }))).2.listCalls
      = 2 ∧
    (getRulesTimes testCompile 2 (InvalidateCache (testMutator [brokenRule]))).2.listCalls
      = 2 ∧
    (getRulesTimes testCompile 2 (InvalidateCache (testMutator [brokenRule]))).2.cacheMisses
      = 2 := by
  decide

/-- C12, amended. With the Rule Store's list succeeding with `items`, the `n ≥ 1`
consecutive `getRules` calls after `InvalidateCache` all return the compiled rules of
`items` sorted by priority (a permutation of the declared rules that compile, priorities
non-increasing). If at least one declared pattern compiles, the first call lists the Rule
Store and is the one rebuild (one miss), and the other `n - 1` calls are cache hits; if
none compiles, every one of the `n` calls lists the Rule Store. -/
theorem getRules_after_invalidate (Compile : String → Option Regexp) (m : PodMutator)
    (items : List RegistryRewriteRule) (n : Nat) (hlist : m.Client.List = .ok items)
    (hn : 1 ≤ n) :
    (getRulesTimes Compile n (InvalidateCache m)).1
      = List.replicate n (.ok (sortSlice priorityLess (compileRules Compile items))) ∧
    ((sortSlice priorityLess (compileRules Compile items)).map (fun cr => cr.rule)).Perm
      ((items.flatMap (fun rr => rr.Spec.Rules)).filter
        (fun rule => (Compile rule.Match).isSome)) ∧
    (sortSlice priorityLess (compileRules Compile items)).Pairwise
      (fun a b => a.rule.Priority ≥ b.rule.Priority) ∧
    ((∃ rule ∈ items.flatMap (fun rr => rr.Spec.Rules), (Compile rule.Match).isSome = true) →
      (getRules Compile (InvalidateCache m)).2.listCalls = m.listCalls + 1 ∧
      (getRulesTimes Compile n (InvalidateCache m)).2.listCalls = m.listCalls + 1 ∧
      (getRulesTimes Compile n (InvalidateCache m)).2.cacheMisses = m.cacheMisses + 1 ∧
      (getRulesTimes Compile n (InvalidateCache m)).2.cacheHits = m.cacheHits + (n - 1)) ∧
    ((∀ rule ∈ items.flatMap (fun rr => rr.Spec.Rules), (Compile rule.Match).isSome = false) →
      (getRulesTimes Compile n (InvalidateCache m)).2.listCalls = m.listCalls + n) := by
  obtain ⟨k, rfl⟩ : ∃ k, n = k + 1 := ⟨n - 1, by omega⟩
  have hlist1 : (InvalidateCache m).Client.List = .ok items := hlist
  have hg := getRules_rebuild_eq Compile (InvalidateCache m) items hlist1 rfl
  have hperm : ((sortSlice priorityLess (compileRules Compile items)).map
      (fun cr => cr.rule)).Perm ((items.flatMap (fun rr => rr.Spec.Rules)).filter
        (fun rule => (Compile rule.Match).isSome)) := by
    rw [← compileRules_rules]
    exact (sortSlice_perm _ _).map _
  have hsorted := sortSlice_sorted (fun cr : compiledRule => cr.rule.Priority)
    (compileRules Compile items)
  by_cases hnil : sortSlice priorityLess (compileRules Compile items) = []
  · have hall := (sorted_rules_eq_nil_iff Compile items).mp hnil
    have he := getRulesTimes_empty Compile (k + 1) (InvalidateCache m) items hlist1 rfl hnil
    refine ⟨by rw [he.1, hnil], hperm, hsorted, ?_, fun _ => he.2⟩
    rintro ⟨rule, hmem, hsome⟩
    rw [hall rule hmem] at hsome
    cases hsome
  · have hh := getRulesTimes_hits Compile k (getRules Compile (InvalidateCache m)).2
      { rules := sortSlice priorityLess (compileRules Compile items) } (by rw [hg]) hnil
    refine ⟨?_, hperm, hsorted, fun _ => ⟨by rw [hg]; rfl, ?_, ?_, ?_⟩, ?_⟩
    · simp only [getRulesTimes, List.replicate_succ]
      rw [hh.1, hg]
    · simp only [getRulesTimes]
      rw [hh.2.1, hg]; rfl
    · simp only [getRulesTimes]
      rw [hh.2.2.1, hg]; rfl
    · simp only [getRulesTimes]
      rw [hh.2.2.2, hg]
      simp only [Nat.add_sub_cancel]
      rfl
    · intro hall
      exact absurd ((sorted_rules_eq_nil_iff Compile items).mpr hall) hnil

theorem getRules_after_invalidate_witness :
    (getRulesTimes testCompile 3 (InvalidateCache (testMutator
        [(dockerIoRule "ecr.aws/dockerhub/$1" 50).rule, brokenRule, nginxRule.rule]))).1
      = List.replicate 3 (.ok (sortSlice priorityLess (compileRules testCompile
          [{ Name := "hub", Spec := { Rules :=
            [(dockerIoRule "ecr.aws/dockerhub/$1" 50).rule, brokenRule, nginxRule.rule] } }]))) ∧
    (getRulesTimes testCompile 3 (InvalidateCache (testMutator
        [(dockerIoRule "ecr.aws/dockerhub/$1" 50).rule, brokenRule, nginxRule.rule]))).2.listCalls
      = 0 + 1 ∧
    (getRulesTimes testCompile 3 (InvalidateCache (testMutator [brokenRule]))).2.listCalls
      = 0 + 3 :=
  ⟨(getRules_after_invalidate testCompile (testMutator
      [(dockerIoRule "ecr.aws/dockerhub/$1" 50).rule, brokenRule, nginxRule.rule]) _ 3 rfl
      (by decide)).1,
    ((getRules_after_invalidate testCompile (testMutator
      [(dockerIoRule "ecr.aws/dockerhub/$1" 50).rule, brokenRule, nginxRule.rule]) _ 3 rfl
      (by decide)).2.2.2.1 ⟨nginxRule.rule, by simp, rfl⟩).2.1,
    (getRules_after_invalidate testCompile (testMutator [brokenRule]) _ 3 rfl
      (by decide)).2.2.2.2 (by
        intro rule hrule
        simp only [List.flatMap_cons, List.flatMap_nil, List.append_nil,
          List.mem_singleton] at hrule
        subst hrule
        rfl)⟩

/-! ## The patch of `Handle` -/

/-- A container loop of `Handle` leaves the list in which every image is replaced by
`mutateImage` of it. -/
theorem mutateContainers_fst (rules : List compiledRule) (pod : Pod) (cs : List Container) :
    (mutateContainers rules pod cs).1 = rewriteContainers rules pod cs := by
  induction cs with
  | nil => rfl
  | cons c cs ih =>
    simp only [mutateContainers, rewriteContainers, List.map_cons] at ih ⊢
    by_cases h : mutateImage c.Image rules pod = c.Image
    · simp only [h, bne_self_eq_false, Bool.false_eq_true, if_false, ih]
    · have hb : (mutateImage c.Image rules pod != c.Image) = true := by simpa using h
      simp only [hb, if_true, ih]

/-- The flag of a container loop stays down exactly when no image changes. -/
theorem mutateContainers_snd (rules : List compiledRule) (pod : Pod) (cs : List Container) :
    (mutateContainers rules pod cs).2 = false ↔
      ∀ c ∈ cs, mutateImage c.Image rules pod = c.Image := by
  induction cs with
  | nil => simp [mutateContainers]
  | cons c cs ih =>
    simp only [mutateContainers, List.mem_cons, forall_eq_or_imp]
    by_cases h : mutateImage c.Image rules pod = c.Image
    · simp only [h, bne_self_eq_false, Bool.false_eq_true, if_false, true_and, ih]
    · have hb : (mutateImage c.Image rules pod != c.Image) = true := by simpa using h
      simp [hb, h]

/-- The three flags of `Handle` stay down exactly when no image of the pod changes. -/
theorem mutated_flags (rules : List compiledRule) (pod : Pod) :
    ((mutateContainers rules pod pod.Containers).2 ||
      (mutateContainers rules pod pod.InitContainers).2 ||
      (mutateContainers rules pod pod.EphemeralContainers).2) = false ↔
      ∀ image ∈ podImages pod, mutateImage image rules pod = image := by
  simp only [Bool.or_eq_false_iff, mutateContainers_snd, podImages, List.mem_map,
    List.mem_append]
  constructor
  · rintro ⟨⟨h1, h2⟩, h3⟩ image ⟨c, (hc | hc) | hc, rfl⟩
    · exact h1 c hc
    · exact h2 c hc
    · exact h3 c hc
  · intro h
    exact ⟨⟨fun c hc => h _ ⟨c, Or.inl (Or.inl hc), rfl⟩,
      fun c hc => h _ ⟨c, Or.inl (Or.inr hc), rfl⟩⟩,
      fun c hc => h _ ⟨c, Or.inr hc, rfl⟩⟩

/-- What `Handle` answers once it holds a non-empty rule sequence. -/
theorem Handle_with_rules (codec : Codec) (Compile : String → Option Regexp) (m : PodMutator)
    (req : Request) (pod : Pod) (R : List compiledRule) (hdec : codec.Decode req = .ok pod)
    (hann : GoMap.find? pod.Annotations "rewrite-disabled" ≠ some "true")
    (hrules : (getRules Compile m).1 = .ok R) (hne : R ≠ []) :
    (Handle codec Compile m req).1 =
      if ∀ image ∈ podImages pod, mutateImage image R pod = image then
        Response.Allowed "no mutations needed"
      else
        match codec.Marshal (rewrittenPod R pod) with
        | .ok current => Response.PatchResponseFromRaw req.Raw current
        | .error e => Response.Errored 500 e := by
  have hnd := not_disabled_test pod hann
  have hlen : ¬ R.length = 0 := fun h => hne (List.length_eq_zero.mp h)
  rcases hg : getRules Compile m with ⟨r1, m1⟩
  rw [hg] at hrules
  simp only at hrules
  subst hrules
  simp only [Handle, hdec, hnd, hg, Bool.false_eq_true, if_false, hlen]
  by_cases hall : ∀ image ∈ podImages pod, mutateImage image R pod = image
  · have hf := (mutated_flags R pod).mpr hall
    rw [if_pos hall]
    simp only [hf, Bool.not_false, if_true]
  · have hf : ((mutateContainers R pod pod.Containers).2 ||
        (mutateContainers R pod pod.InitContainers).2 ||
        (mutateContainers R pod pod.EphemeralContainers).2) = true := by
      rw [← Bool.not_eq_false]
      exact fun h => hall ((mutated_flags R pod).mp h)
    rw [if_neg hall]
    simp only [hf, Bool.not_true, Bool.false_eq_true, if_false, mutateContainers_fst]
    unfold rewrittenPod
    cases codec.Marshal { pod with
        Containers := rewriteContainers R pod pod.Containers,
        InitContainers := rewriteContainers R pod pod.InitContainers,
        EphemeralContainers := rewriteContainers R pod pod.EphemeralContainers } <;> rfl

/-- C14. When the Pod decodes, is not disabled by annotation, and `getRules` yields a
non-empty rule sequence `R`: (1) `Handle` answers `Allowed` if and only if `mutateImage`
returns every image of the containers, init containers and ephemeral containers unchanged;
(2) otherwise its answer is the patch from the raw object to the marshalled form of
`rewrittenPod R pod` (the error answer with code 500 if the marshaller fails on it); (3) in
`rewrittenPod R pod` the container at each index of each of the three lists is the original
one with its image replaced by `mutateImage` of the original image, so order and count are
kept, and name, namespace, labels and annotations are those of the original pod. -/
theorem Handle_patches_images (codec : Codec) (Compile : String → Option Regexp)
    (m : PodMutator) (req : Request) (pod : Pod) (R : List compiledRule)
    (hdec : codec.Decode req = .ok pod)
    (hann : GoMap.find? pod.Annotations "rewrite-disabled" ≠ some "true")
    (hrules : (getRules Compile m).1 = .ok R) (hne : R ≠ []) :
    ((∃ reason, (Handle codec Compile m req).1 = Response.Allowed reason) ↔
      ∀ image ∈ podImages pod, mutateImage image R pod = image) ∧
    ((∃ image ∈ podImages pod, mutateImage image R pod ≠ image) →
      (Handle codec Compile m req).1 =
        match codec.Marshal (rewrittenPod R pod) with
        | .ok current => Response.PatchResponseFromRaw req.Raw current
        | .error e => Response.Errored 500 e) ∧
    ((∀ i : Nat, (rewrittenPod R pod).Containers[i]? =
        pod.Containers[i]?.map
          (fun c : Container => { c with Image := mutateImage c.Image R pod })) ∧
      (∀ i : Nat, (rewrittenPod R pod).InitContainers[i]? =
        pod.InitContainers[i]?.map
          (fun c : Container => { c with Image := mutateImage c.Image R pod })) ∧
      (∀ i : Nat, (rewrittenPod R pod).EphemeralContainers[i]? =
        pod.EphemeralContainers[i]?.map
          (fun c : Container => { c with Image := mutateImage c.Image R pod })) ∧
      (rewrittenPod R pod).Containers.length = pod.Containers.length ∧
      (rewrittenPod R pod).InitContainers.length = pod.InitContainers.length ∧
      (rewrittenPod R pod).EphemeralContainers.length = pod.EphemeralContainers.length ∧
      (rewrittenPod R pod).Name = pod.Name ∧
      (rewrittenPod R pod).Namespace = pod.Namespace ∧
      (rewrittenPod R pod).Labels = pod.Labels ∧
      (rewrittenPod R pod).Annotations = pod.Annotations) := by
  have hH := Handle_with_rules codec Compile m req pod R hdec hann hrules hne
  refine ⟨?_, ?_, ?_⟩
  · constructor
    · rintro ⟨reason, hr⟩
      by_contra hall
      rw [hH, if_neg hall] at hr
      cases hM : codec.Marshal (rewrittenPod R pod) with
      | ok current => rw [hM] at hr; cases hr
      | error e => rw [hM] at hr; cases hr
    · intro hall
      exact ⟨"no mutations needed", by rw [hH, if_pos hall]⟩
  · rintro ⟨image, hmem, hchg⟩
    have hall : ¬ ∀ image ∈ podImages pod, mutateImage image R pod = image :=
      fun h => hchg (h image hmem)
    rw [hH, if_neg hall]
  · simp [rewrittenPod, rewriteContainers, List.getElem?_map]

theorem Handle_patches_images_witness :
    (Handle (imageCodec webPod) testCompile
        (testMutator [(dockerIoRule "ecr.aws/dockerhub/$1" 50).rule, brokenRule, nginxRule.rule])
        { Namespace := "default", Raw := "raw" }).1
      = Response.PatchResponseFromRaw "raw"
          ("special-registry/nginx,gcr.io/project/image:tag," ++
            "ecr.aws/dockerhub/redis:alpine,quay.io/org/image") :=
  (Handle_patches_images (imageCodec webPod) testCompile
    (testMutator [(dockerIoRule "ecr.aws/dockerhub/$1" 50).rule, brokenRule, nginxRule.rule])
    { Namespace := "default", Raw := "raw" } webPod
    [nginxRule, dockerIoRule "ecr.aws/dockerhub/$1" 50] rfl (by decide) rfl
    (List.cons_ne_nil _ _)).2.1 ⟨"redis:alpine", by decide, by decide⟩

end Webhook
